import Mathlib

/-!
Verification development for the BioOrbit citation-graph front end.

The first part embeds the pure logic of `src/http/research-orbits/src/pages/AllPapers.tsx`:
seed-DOI normalization (`seedDois`), the cache signature (`cacheSig`), the
localStorage cache (`tryLoadCache`, `saveCache`) and the build-or-load routine
(`buildOrLoad`).  Effects are made explicit: the single localStorage slot is a
value of type `Option StoredVal`, the awaited result of `buildCitationGraph`
is a parameter of type `Except String Graph`, and the number of external build
invocations is returned alongside the new component state.

The second part models the citation-graph builder itself.  Its source file
(`src/lib/citationGraph.ts`) is not part of the repository snapshot, so the
builder is modelled from the specification (bounded breadth-first expansion
with a per-node fan-out cap, an optional global node ceiling, and provider
calls degraded to empty lists on failure).

String primitives used by the TypeScript code (`trim`, default `sort`,
`join("|")`, `Set` deduplication, `indexOf`-style first positions) are given
structural Lean definitions so that every concrete instance evaluates by
`decide`.
-/

/-- JavaScript `String.prototype.trim` on the character-list representation:
drop whitespace from both ends. -/
def trimChars (l : List Char) : List Char :=
  ((l.dropWhile Char.isWhitespace).reverse.dropWhile Char.isWhitespace).reverse

/-- JavaScript `s.trim()`. -/
def jsTrim (s : String) : String := ⟨trimChars s.data⟩

/-- Lexicographic comparison of character lists by code point, the order used
by JavaScript's default `Array.prototype.sort` on strings. -/
def leChars : List Char → List Char → Bool
  | [], _ => true
  | _ :: _, [] => false
  | a :: as, b :: bs =>
    if a.toNat < b.toNat then true
    else if b.toNat < a.toNat then false
    else leChars as bs

/-- The string order induced by `leChars`. -/
def strLeRel (a b : String) : Prop := leChars a.data b.data = true

instance : DecidableRel strLeRel := fun a b => Bool.decEq (leChars a.data b.data) true

/-- First index of `x` in a list (length of the list when absent), the
JavaScript `indexOf` convention for present elements. -/
def idxOfStr (x : String) : List String → Nat
  | [] => 0
  | y :: ys => if y = x then 0 else idxOfStr x ys + 1

/-- Deduplication keeping the first occurrence of each element, with an
accumulator of already-seen elements: the iteration order of
`Array.from(new Set(list))`. -/
def dedupSeen : List String → List String → List String
  | _, [] => []
  | seen, x :: xs => if x ∈ seen then dedupSeen seen xs else x :: dedupSeen (x :: seen) xs

/-- `Array.from(new Set(list))`. -/
def dedupFirst (l : List String) : List String := dedupSeen [] l

/-- JavaScript `list.join("|")`. -/
def joinBar : List String → String
  | [] => ""
  | [s] => s
  | s :: t :: r => s ++ "|" ++ joinBar (t :: r)

/-- `joinBar` on the character-list representation. -/
def joinL : List (List Char) → List Char
  | [] => []
  | [s] => s
  | s :: t :: r => s ++ '|' :: joinL (t :: r)

/-- A graph node as serialized by the builder: `{id, label, size, depth}`. -/
structure GNode where
  id : String
  label : Option String
  size : Nat
  depth : Nat
  deriving DecidableEq

/-- A citation edge `{source, target}`: source cites target. -/
structure GLink where
  source : String
  target : String
  deriving DecidableEq

/-- The builder's output graph: `{ nodes, links }`. -/
structure Graph where
  nodes : List GNode
  links : List GLink
  deriving DecidableEq

/-- The trim-and-drop pass of the seed collection loop in `AllPapers.tsx`:
an entry contributes its trimmed text when that text is non-empty. -/
def cleanIds (l : List String) : List String :=
  l.filterMap (fun s => if jsTrim s = "" then none else some (jsTrim s))

/-- `seedDois` of `AllPapers.tsx`: each paper's optional `doi` field is
trimmed, empty and whitespace-only entries are dropped, and the result is
deduplicated keeping first occurrences (`Array.from(new Set(dois))`). -/
def seedDois (ps : List (Option String)) : List String :=
  dedupFirst (cleanIds (ps.filterMap (fun o => o)))

/-- `cacheSig` of `AllPapers.tsx`: `seedDois.slice().sort().join("|")`. -/
def cacheSig (dois : List String) : String :=
  joinBar (List.insertionSort strLeRel dois)

/-- The parsed `graph` field of a stored cache record, before the
`graph?.nodes && graph?.links` validation: either field may be absent. -/
structure JGraph where
  nodes : Option (List GNode)
  links : Option (List GLink)
  deriving DecidableEq

/-- The JSON image of a freshly built graph: both fields present. -/
def toJ (g : Graph) : JGraph := ⟨some g.nodes, some g.links⟩

/-- What `localStorage.getItem(CACHE_KEY)` can hold once read and parsed:
text that `JSON.parse` rejects, parseable text that is not a
`{sig, graph}` record, or a record with its `sig` string and optional
`graph` value. -/
inductive StoredVal where
  | malformed : StoredVal
  | nonRecord : StoredVal
  | record : String → Option JGraph → StoredVal
  deriving DecidableEq

/-- `tryLoadCache` of `AllPapers.tsx`: absent or unparseable storage and the
`catch` path give `null`; a parsed record is returned only when its `sig`
equals the current signature and its graph has both `nodes` and `links`. -/
def tryLoadCache (store : Option StoredVal) (sig : String) : Option JGraph :=
  match store with
  | none => none
  | some StoredVal.malformed => none
  | some StoredVal.nonRecord => none
  | some (StoredVal.record sg og) =>
    match og with
    | none => none
    | some jg => if sg = sig ∧ jg.nodes.isSome ∧ jg.links.isSome then some jg else none

/-- `saveCache` of `AllPapers.tsx`: on success the slot holds
`{sig, graph}`; a storage failure is caught and the slot is unchanged. -/
def saveCache (sig : String) (store : Option StoredVal) (g : Graph) (writeOk : Bool) :
    Option StoredVal :=
  if writeOk then some (StoredVal.record sig (some (toJ g))) else store

/-- The component state `buildOrLoad` interacts with: the `graph` and
`graphErr` React states and the localStorage slot. -/
structure PageState where
  graph : Option JGraph
  err : Option String
  store : Option StoredVal
  deriving DecidableEq

/-- The fallback message of the `catch` branch of `buildOrLoad`. -/
def defaultBuildErr : String := "Failed to build citation network"

/-- `buildOrLoad` of `AllPapers.tsx` over the memoized `seedDois` value.
`outcome` is the awaited result of `buildCitationGraph` (`Except.error m`
when it throws with message `m`; the falsy message defaults to
`defaultBuildErr`), `writeOk` tells whether the cache write would succeed.
The returned `Nat` counts invocations of `buildCitationGraph`. -/
def buildOrLoad (dois : List String) (force : Bool) (st : PageState)
    (outcome : Except String Graph) (writeOk : Bool) : PageState × Nat :=
  if dois = [] then ({ st with graph := none, err := none }, 0)
  else
    match (if force then none else tryLoadCache st.store (cacheSig dois)) with
    | some jg => ({ st with graph := some jg, err := none }, 0)
    | none =>
      match outcome with
      | Except.ok g =>
        ({ graph := some (toJ g), err := none,
           store := saveCache (cacheSig dois) st.store g writeOk }, 1)
      | Except.error m =>
        ({ st with err := some (if m = "" then defaultBuildErr else m) }, 1)

/-- Modelled from the spec: the configuration of `buildCitationGraph`
(`src/lib/citationGraph.ts`, not present in the repository snapshot).
`fetchRefs` and `fetchCiters` abstract the rate-limited provider calls,
already degraded to `[]` on failure as the Rate-Limited Fetcher prescribes;
`delayMs` paces requests and has no effect on the produced graph. -/
structure BuildConfig where
  seedDois : List String
  titlesByDoi : String → Option String
  maxDepth : Nat
  maxRefsPerNode : Nat
  maxTotalNodes : Option Nat
  includeIncoming : Bool
  fetchRefs : String → List String
  fetchCiters : String → List String
  delayMs : Nat

/-- Modelled from the spec: the traversal state of the missing builder, the
discovered nodes `(id, depth-at-discovery)` in discovery order and the
accumulated edge set. -/
structure BState where
  visited : List (String × Nat)
  edges : List (String × String)

/-- The ids of the discovered nodes. -/
def visitedIds (st : BState) : List String := st.visited.map Prod.fst

/-- Modelled from the spec: edge orientation is always citer to cited, also
when the related id came from an incoming-citations call. -/
def mkEdge (incoming : Bool) (idv r : String) : String × String :=
  if incoming then (r, idv) else (idv, r)

/-- Modelled from the spec: edges are deduplicated by ordered pair. -/
def addEdge (es : List (String × String)) (e : String × String) : List (String × String) :=
  if e ∈ es then es else es ++ [e]

/-- Modelled from the spec: the optional global node ceiling; once the
discovered count reaches it, no further node is added. -/
def canAdd : Option Nat → BState → Bool
  | none, _ => true
  | some m, st => st.visited.length < m

/-- Modelled from the spec: process one expanded node's related-identifier
list.  Self-edges are discarded; an already discovered id contributes only
its edge; a new id is added (with the edge) and enqueued when the ceiling
allows, and skipped entirely otherwise so that no dangling edge appears.
Returns the updated state and the ids newly enqueued, in order. -/
def addRelated (incoming : Bool) (idv : String) (d : Nat) (ceil : Option Nat) :
    List String → BState → BState × List String
  | [], st => (st, [])
  | r :: rs, st =>
    if r = idv then addRelated incoming idv d ceil rs st
    else if r ∈ visitedIds st then
      addRelated incoming idv d ceil rs ⟨st.visited, addEdge st.edges (mkEdge incoming idv r)⟩
    else if canAdd ceil st then
      ((addRelated incoming idv d ceil rs
          ⟨st.visited ++ [(r, d)], addEdge st.edges (mkEdge incoming idv r)⟩).1,
        r :: (addRelated incoming idv d ceil rs
          ⟨st.visited ++ [(r, d)], addEdge st.edges (mkEdge incoming idv r)⟩).2)
    else addRelated incoming idv d ceil rs st

/-- Modelled from the spec: expand one node, truncating each provider list to
the per-node fan-out cap, and processing incoming citations only when that
mode is enabled.  `d` is the depth assigned to newly discovered nodes. -/
def expandNode (cfg : BuildConfig) (d : Nat) (st : BState) (idv : String) :
    BState × List String :=
  if cfg.includeIncoming then
    ((addRelated true idv d cfg.maxTotalNodes
        ((cfg.fetchCiters idv).take cfg.maxRefsPerNode)
        (addRelated false idv d cfg.maxTotalNodes
          ((cfg.fetchRefs idv).take cfg.maxRefsPerNode) st).1).1,
      (addRelated false idv d cfg.maxTotalNodes
          ((cfg.fetchRefs idv).take cfg.maxRefsPerNode) st).2 ++
        (addRelated true idv d cfg.maxTotalNodes
          ((cfg.fetchCiters idv).take cfg.maxRefsPerNode)
          (addRelated false idv d cfg.maxTotalNodes
            ((cfg.fetchRefs idv).take cfg.maxRefsPerNode) st).1).2)
  else
    addRelated false idv d cfg.maxTotalNodes
      ((cfg.fetchRefs idv).take cfg.maxRefsPerNode) st

/-- Modelled from the spec: expand every node of one frontier level in FIFO
order, collecting the next level. -/
def expandLevel (cfg : BuildConfig) (d : Nat) : List String → BState → BState × List String
  | [], st => (st, [])
  | i :: ids, st =>
    ((expandLevel cfg d ids (expandNode cfg d st i).1).1,
      (expandNode cfg d st i).2 ++ (expandLevel cfg d ids (expandNode cfg d st i).1).2)

/-- Modelled from the spec: level-synchronous bounded breadth-first
traversal.  The budget is the remaining depth: nodes of the last level are in
the graph but not expanded. -/
def bfs (cfg : BuildConfig) : Nat → Nat → List String → BState → BState
  | 0, _, _, st => st
  | Nat.succ b, d, frontier, st =>
    bfs cfg b (d + 1) (expandLevel cfg (d + 1) frontier st).2
      (expandLevel cfg (d + 1) frontier st).1

/-- Modelled from the spec: the normalized seed list (Identifier Normalizer),
clipped by the node ceiling. -/
def seedList (cfg : BuildConfig) : List String :=
  match cfg.maxTotalNodes with
  | none => dedupFirst (cleanIds cfg.seedDois)
  | some m => (dedupFirst (cleanIds cfg.seedDois)).take m

/-- Number of edges touching a node id. -/
def degreeOf (es : List (String × String)) (idv : String) : Nat :=
  (es.filter (fun e => e.1 = idv ∨ e.2 = idv)).length

/-- Modelled from the spec: a monotone visual size weight clamped to a
min/max range (the exact constants are not specified). -/
def nodeSize (deg : Nat) : Nat := min 16 (4 + 2 * deg)

/-- Modelled from the spec: `buildCitationGraph` of the missing
`src/lib/citationGraph.ts`.  Seeds are normalized and enter at depth 0; the
frontier is expanded level by level up to `maxDepth`; the Graph Assembler
attaches the label from the seed-title map and a degree-based size. -/
def buildCitationGraph (cfg : BuildConfig) : Graph :=
  { nodes :=
      (bfs cfg cfg.maxDepth 0 (seedList cfg)
          ⟨(seedList cfg).map (fun s => (s, 0)), []⟩).visited.map
        (fun p =>
          { id := p.1, label := cfg.titlesByDoi p.1,
            size := nodeSize (degreeOf
              (bfs cfg cfg.maxDepth 0 (seedList cfg)
                ⟨(seedList cfg).map (fun s => (s, 0)), []⟩).edges p.1),
            depth := p.2 }),
    links :=
      (bfs cfg cfg.maxDepth 0 (seedList cfg)
          ⟨(seedList cfg).map (fun s => (s, 0)), []⟩).edges.map
        (fun e => { source := e.1, target := e.2 }) }

/-- The id set of a graph's nodes. -/
def nodeIds (g : Graph) : List String := g.nodes.map GNode.id

/-- Modelled from the spec: the Rate-Limited Fetcher's retry loop.
`p i` is the outcome of attempt `i`; the second argument is the remaining
attempt budget.  Exhausting the budget yields `[]` (an empty related-work
list) instead of an error; the increasing backoff delays have no effect on
the returned data. -/
def retryFetch (p : Nat → Except Unit (List String)) : Nat → Nat → List String
  | _, 0 => []
  | i, Nat.succ n =>
    match p i with
    | Except.ok l => l
    | Except.error _ => retryFetch p (i + 1) n

/-- Every accumulated edge has both endpoints among the discovered nodes. -/
def EdgeInv (st : BState) : Prop :=
  ∀ e ∈ st.edges, e.1 ∈ visitedIds st ∧ e.2 ∈ visitedIds st

/-- Claim C3 (counterexample): with a seed list that is empty after
normalization, `buildOrLoad` leaves the graph state cleared (`null`) and does
not return a graph with empty node and edge sets. -/
theorem c3_counterexample_empty_seeds_yield_null :
    (buildOrLoad (seedDois [some "   ", none]) false ⟨none, none, none⟩
        (Except.ok ⟨[], []⟩) true).1.graph = none
      ∧ (buildOrLoad (seedDois [some "   ", none]) false ⟨none, none, none⟩
        (Except.ok ⟨[], []⟩) true).1.graph ≠ some (toJ ⟨[], []⟩) := by
  decide

/-- Claim C3 (amended): when the seed list is empty after normalization, the
build short-circuits before any cache lookup or external call (zero build
invocations, any cache state and build outcome give the same result) and
clears the graph state to `null` with no error, rather than publishing a
graph. -/
theorem c3_empty_seeds_short_circuit (ps : List (Option String)) (force : Bool)
    (st : PageState) (outcome : Except String Graph) (w : Bool)
    (h : seedDois ps = []) :
    buildOrLoad (seedDois ps) force st outcome w
      = ({ st with graph := none, err := none }, 0) := by
  rw [h]
  simp [buildOrLoad]

/-- Witness for the amended C3 at a concrete whitespace-only seed list. -/
theorem c3_empty_seeds_short_circuit_witness :
    buildOrLoad (seedDois [some "   ", none]) true
        ⟨none, some "old", some StoredVal.malformed⟩ (Except.error "boom") false
      = (⟨none, none, some StoredVal.malformed⟩, 0) := by
  have h := c3_empty_seeds_short_circuit [some "   ", none] true
    ⟨none, some "old", some StoredVal.malformed⟩ (Except.error "boom") false (by decide)
  simpa using h

/-- Claim C10: when the build is reached (non-empty seeds, forced or a cache
miss) and `buildCitationGraph` throws, the stored cache record and the graph
state are left exactly as they were, the failure becomes an error message,
and the one external call is the failed build. -/
theorem c10_failed_build_is_atomic (dois : List String) (force : Bool)
    (st : PageState) (m : String) (w : Bool) (hne : dois ≠ [])
    (hmiss : force = true ∨ tryLoadCache st.store (cacheSig dois) = none) :
    buildOrLoad dois force st (Except.error m) w
      = ({ st with err := some (if m = "" then defaultBuildErr else m) }, 1) := by
  rcases hmiss with hf | hm
  · subst hf
    simp [buildOrLoad, hne]
  · cases force
    · simp [buildOrLoad, hne, hm]
    · simp [buildOrLoad, hne]

/-- Witness for C10 at a concrete failing build with an empty message. -/
theorem c10_failed_build_is_atomic_witness :
    buildOrLoad ["a"] false ⟨none, none, none⟩ (Except.error "") true
      = (⟨none, some "Failed to build citation network", none⟩, 1) := by
  have h := c10_failed_build_is_atomic ["a"] false ⟨none, none, none⟩ "" true
    (by decide) (Or.inr rfl)
  simpa [defaultBuildErr] using h

/-- Claim C6: a failing cache write is swallowed: when the build is reached
and succeeds, the caller still gets the freshly built graph with no error,
and the stored record is simply left unchanged. -/
theorem c6_cache_write_failure_swallowed (dois : List String) (force : Bool)
    (st : PageState) (g : Graph) (hne : dois ≠ [])
    (hmiss : force = true ∨ tryLoadCache st.store (cacheSig dois) = none) :
    buildOrLoad dois force st (Except.ok g) false
      = ({ graph := some (toJ g), err := none, store := st.store }, 1) := by
  rcases hmiss with hf | hm
  · subst hf
    simp [buildOrLoad, hne, saveCache]
  · cases force
    · simp [buildOrLoad, hne, hm, saveCache]
    · simp [buildOrLoad, hne, saveCache]

/-- Witness for C6: the write fails, yet the built graph is delivered and the
previously stored record survives. -/
theorem c6_cache_write_failure_swallowed_witness :
    buildOrLoad ["a"] true ⟨none, none, some StoredVal.nonRecord⟩
        (Except.ok ⟨[], []⟩) false
      = (⟨some (toJ ⟨[], []⟩), none, some StoredVal.nonRecord⟩, 1) := by
  have h := c6_cache_write_failure_swallowed ["a"] true
    ⟨none, none, some StoredVal.nonRecord⟩ ⟨[], []⟩ (by decide) (Or.inl rfl)
  simpa using h

/-- Claim C4 (counterexample): with an empty seed set, `buildOrLoad` with
`force = true` performs no fresh build and overwrites nothing, so the claim
does not hold for every seed set. -/
theorem c4_counterexample_empty_seeds_no_rebuild :
    (buildOrLoad [] true ⟨none, none, some (StoredVal.record "" (some (toJ ⟨[], []⟩)))⟩
        (Except.ok ⟨[⟨"x", none, 4, 0⟩], []⟩) true).2 = 0
      ∧ (buildOrLoad [] true ⟨none, none, some (StoredVal.record "" (some (toJ ⟨[], []⟩)))⟩
        (Except.ok ⟨[⟨"x", none, 4, 0⟩], []⟩) true).1.store
          = some (StoredVal.record "" (some (toJ ⟨[], []⟩)))
      ∧ ¬((buildOrLoad [] true ⟨none, none, some (StoredVal.record "" (some (toJ ⟨[], []⟩)))⟩
        (Except.ok ⟨[⟨"x", none, 4, 0⟩], []⟩) true).2 = 1
          ∧ (buildOrLoad [] true ⟨none, none, some (StoredVal.record "" (some (toJ ⟨[], []⟩)))⟩
            (Except.ok ⟨[⟨"x", none, 4, 0⟩], []⟩) true).1.store
              = some (StoredVal.record "" (some (toJ ⟨[⟨"x", none, 4, 0⟩], []⟩)))) := by
  decide

/-- Claim C4 (amended): for every non-empty seed set, `force = true` bypasses
the cache lookup (the cache state is irrelevant), performs exactly one fresh
build, and overwrites the single stored record with the fresh graph keyed by
the current signature, even when the signature is unchanged. -/
theorem c4_force_rebuilds_and_overwrites (dois : List String) (st : PageState)
    (g : Graph) (hne : dois ≠ []) :
    buildOrLoad dois true st (Except.ok g) true
      = ({ graph := some (toJ g), err := none,
           store := some (StoredVal.record (cacheSig dois) (some (toJ g))) }, 1) := by
  simp [buildOrLoad, hne, saveCache]

/-- Witness for the amended C4: the stored record already matches the current
signature, yet a fresh build happens and the record is overwritten. -/
theorem c4_force_rebuilds_and_overwrites_witness :
    buildOrLoad ["a"] true
        ⟨none, none, some (StoredVal.record (cacheSig ["a"]) (some (toJ ⟨[], []⟩)))⟩
        (Except.ok ⟨[⟨"x", none, 4, 0⟩], []⟩) true
      = (⟨some (toJ ⟨[⟨"x", none, 4, 0⟩], []⟩), none,
          some (StoredVal.record (cacheSig ["a"]) (some (toJ ⟨[⟨"x", none, 4, 0⟩], []⟩)))⟩, 1) := by
  have h := c4_force_rebuilds_and_overwrites ["a"]
    ⟨none, none, some (StoredVal.record (cacheSig ["a"]) (some (toJ ⟨[], []⟩)))⟩
    ⟨[⟨"x", none, 4, 0⟩], []⟩ (by decide)
  simpa using h

/-- Claim C9: the cache read degrades every invalid persisted state to a
miss: absent storage, unparseable text, text parsed to a non-record value,
a signature differing from the current one, a missing `graph` value, a
missing `nodes` or `links` field all give `null`; and on a miss (with a
non-empty seed list and `force = false`) the full build is performed. -/
theorem c9_cache_read_degrades_to_miss :
    (∀ sig, tryLoadCache none sig = none)
  ∧ (∀ sig, tryLoadCache (some StoredVal.malformed) sig = none)
  ∧ (∀ sig, tryLoadCache (some StoredVal.nonRecord) sig = none)
  ∧ (∀ sig sg og, sg ≠ sig → tryLoadCache (some (StoredVal.record sg og)) sig = none)
  ∧ (∀ sig sg, tryLoadCache (some (StoredVal.record sg none)) sig = none)
  ∧ (∀ sig sg jg, jg.nodes = none ∨ jg.links = none →
      tryLoadCache (some (StoredVal.record sg (some jg))) sig = none)
  ∧ (∀ dois st outcome w, dois ≠ [] → tryLoadCache st.store (cacheSig dois) = none →
      (buildOrLoad dois false st outcome w).2 = 1) := by
  refine ⟨fun _ => rfl, fun _ => rfl, fun _ => rfl, ?_, fun _ _ => rfl, ?_, ?_⟩
  · intro sig sg og h
    cases og with
    | none => rfl
    | some jg => simp [tryLoadCache, h]
  · intro sig sg jg h
    rcases h with h | h <;> simp [tryLoadCache, h]
  · intro dois st outcome w hne hm
    cases outcome <;> simp [buildOrLoad, hne, hm]

/-- Claim C2: with a non-empty seed list, a cache miss, a successful build
and a successful cache write, the first `buildOrLoad` (with `force = false`)
stores the built graph under the current signature and publishes it; a second
`buildOrLoad` on the resulting state with the same seed list performs zero
external build calls (whatever outcome a build would have had) and publishes
a graph identical to the one the first call produced and stored. -/
theorem c2_second_call_hits_cache (dois : List String) (st : PageState) (g : Graph)
    (outcome₂ : Except String Graph) (w₂ : Bool) (hne : dois ≠ [])
    (hmiss : tryLoadCache st.store (cacheSig dois) = none) :
    (buildOrLoad dois false st (Except.ok g) true).1.store
        = some (StoredVal.record (cacheSig dois) (some (toJ g)))
  ∧ (buildOrLoad dois false st (Except.ok g) true).1.graph = some (toJ g)
  ∧ (buildOrLoad dois false (buildOrLoad dois false st (Except.ok g) true).1
        outcome₂ w₂).2 = 0
  ∧ (buildOrLoad dois false (buildOrLoad dois false st (Except.ok g) true).1
        outcome₂ w₂).1.graph
      = (buildOrLoad dois false st (Except.ok g) true).1.graph := by
  have h1 : buildOrLoad dois false st (Except.ok g) true
      = ({ graph := some (toJ g), err := none,
           store := some (StoredVal.record (cacheSig dois) (some (toJ g))) }, 1) := by
    simp [buildOrLoad, hne, hmiss, saveCache]
  have h2 : tryLoadCache (some (StoredVal.record (cacheSig dois) (some (toJ g))))
      (cacheSig dois) = some (toJ g) := by
    simp [tryLoadCache, toJ]
  rw [h1]
  refine ⟨rfl, rfl, ?_, ?_⟩ <;> simp [buildOrLoad, hne, h2]

/-- Witness for C2 at a concrete seed list and empty initial cache: the
second call makes zero build calls and returns the stored graph even though a
second build would have failed. -/
theorem c2_second_call_hits_cache_witness :
    (buildOrLoad ["a"] false ⟨none, none, none⟩ (Except.ok ⟨[], []⟩) true).1.store
        = some (StoredVal.record (cacheSig ["a"]) (some (toJ ⟨[], []⟩)))
  ∧ (buildOrLoad ["a"] false ⟨none, none, none⟩ (Except.ok ⟨[], []⟩) true).1.graph
        = some (toJ ⟨[], []⟩)
  ∧ (buildOrLoad ["a"] false
        (buildOrLoad ["a"] false ⟨none, none, none⟩ (Except.ok ⟨[], []⟩) true).1
        (Except.error "down") false).2 = 0
  ∧ (buildOrLoad ["a"] false
        (buildOrLoad ["a"] false ⟨none, none, none⟩ (Except.ok ⟨[], []⟩) true).1
        (Except.error "down") false).1.graph
      = (buildOrLoad ["a"] false ⟨none, none, none⟩ (Except.ok ⟨[], []⟩) true).1.graph :=
  c2_second_call_hits_cache ["a"] ⟨none, none, none⟩ ⟨[], []⟩
    (Except.error "down") false (by decide) rfl

/-- Membership in `dedupSeen`: an element appears iff it appears in the input
and was not already seen. -/
theorem dedupSeen_mem (l : List String) :
    ∀ (seen : List String) (x : String),
      x ∈ dedupSeen seen l ↔ (x ∈ l ∧ x ∉ seen) := by
  induction l with
  | nil => intro seen x; simp [dedupSeen]
  | cons h t ih =>
    intro seen x
    by_cases hs : h ∈ seen
    · simp only [dedupSeen, if_pos hs, ih, List.mem_cons]
      constructor
      · rintro ⟨hxt, hxs⟩
        exact ⟨Or.inr hxt, hxs⟩
      · rintro ⟨hx | hxt, hxs⟩
        · exact absurd (hx ▸ hs) hxs
        · exact ⟨hxt, hxs⟩
    · simp only [dedupSeen, if_neg hs, List.mem_cons, ih]
      by_cases hxh : x = h
      · subst hxh
        simp [hs]
      · simp [hxh]

/-- `dedupSeen` has no duplicates. -/
theorem dedupSeen_nodup (l : List String) :
    ∀ seen : List String, (dedupSeen seen l).Nodup := by
  induction l with
  | nil => intro seen; simp [dedupSeen]
  | cons h t ih =>
    intro seen
    by_cases hs : h ∈ seen
    · simpa [dedupSeen, hs] using ih seen
    · simp only [dedupSeen, if_neg hs, List.nodup_cons]
      refine ⟨fun hc => ?_, ih (h :: seen)⟩
      exact ((dedupSeen_mem t (h :: seen) h).1 hc).2 (List.mem_cons_self h seen)

/-- `dedupSeen` is a subsequence of its input. -/
theorem dedupSeen_sublist (l : List String) :
    ∀ seen : List String, (dedupSeen seen l).Sublist l := by
  induction l with
  | nil => intro seen; simp [dedupSeen]
  | cons h t ih =>
    intro seen
    by_cases hs : h ∈ seen
    · simpa [dedupSeen, hs] using (ih seen).cons h
    · simpa [dedupSeen, hs] using (ih (h :: seen)).cons₂ h

/-- `idxOfStr` at the head. -/
theorem idxOfStr_cons_self (x : String) (l : List String) :
    idxOfStr x (x :: l) = 0 := by
  simp [idxOfStr]

/-- `idxOfStr` past a different head. -/
theorem idxOfStr_cons_ne (x hd : String) (l : List String) (h : hd ≠ x) :
    idxOfStr x (hd :: l) = idxOfStr x l + 1 := by
  simp [idxOfStr, h]

/-- Relative order of first positions is preserved by `dedupSeen` for
elements it keeps. -/
theorem dedupSeen_idx_lt (l : List String) :
    ∀ (seen : List String) (x y : String), x ∉ seen → y ∉ seen →
      x ∈ dedupSeen seen l → y ∈ dedupSeen seen l →
      (idxOfStr x (dedupSeen seen l) < idxOfStr y (dedupSeen seen l)
        ↔ idxOfStr x l < idxOfStr y l) := by
  induction l with
  | nil =>
    intro seen x y _ _ hx
    simp [dedupSeen] at hx
  | cons h t ih =>
    intro seen x y hxs hys hx hy
    by_cases hs : h ∈ seen
    · have hxh : h ≠ x := fun e => hxs (e ▸ hs)
      have hyh : h ≠ y := fun e => hys (e ▸ hs)
      rw [dedupSeen, if_pos hs] at hx hy ⊢
      rw [idxOfStr_cons_ne x h t hxh, idxOfStr_cons_ne y h t hyh,
        Nat.add_lt_add_iff_right]
      exact ih seen x y hxs hys hx hy
    · rw [dedupSeen, if_neg hs] at hx hy ⊢
      by_cases hxh : x = h
      · subst hxh
        by_cases hyx : y = x
        · subst hyx
          simp [idxOfStr_cons_self]
        · simp only [idxOfStr_cons_self,
            idxOfStr_cons_ne y x (dedupSeen (x :: seen) t) (Ne.symm hyx),
            idxOfStr_cons_ne y x t (Ne.symm hyx)]
          omega
      · by_cases hyh : y = h
        · subst hyh
          simp only [idxOfStr_cons_self,
            idxOfStr_cons_ne x y (dedupSeen (y :: seen) t) (Ne.symm hxh),
            idxOfStr_cons_ne x y t (Ne.symm hxh)]
          omega
        · have hxD : x ∈ dedupSeen (h :: seen) t := by
            rcases List.mem_cons.1 hx with e | m
            · exact absurd e hxh
            · exact m
          have hyD : y ∈ dedupSeen (h :: seen) t := by
            rcases List.mem_cons.1 hy with e | m
            · exact absurd e hyh
            · exact m
          rw [idxOfStr_cons_ne x h (dedupSeen (h :: seen) t) (Ne.symm hxh),
            idxOfStr_cons_ne y h (dedupSeen (h :: seen) t) (Ne.symm hyh),
            idxOfStr_cons_ne x h t (Ne.symm hxh), idxOfStr_cons_ne y h t (Ne.symm hyh),
            Nat.add_lt_add_iff_right, Nat.add_lt_add_iff_right]
          refine ih (h :: seen) x y ?_ ?_ hxD hyD
          · simp [hxh, hxs]
          · simp [hyh, hys]

/-- Membership in `cleanIds`. -/
theorem cleanIds_mem (l : List String) (x : String) :
    x ∈ cleanIds l ↔ ∃ d ∈ l, jsTrim d ≠ "" ∧ jsTrim d = x := by
  simp only [cleanIds, List.mem_filterMap]
  constructor
  · rintro ⟨d, hd, he⟩
    by_cases hc : jsTrim d = ""
    · simp [hc] at he
    · simp only [if_neg hc] at he
      exact ⟨d, hd, hc, Option.some.inj he⟩
  · rintro ⟨d, hd, hc, he⟩
    exact ⟨d, hd, by rw [if_neg hc, he]⟩

/-- Membership in `seedDois`. -/
theorem seedDois_mem (ps : List (Option String)) (x : String) :
    x ∈ seedDois ps ↔ ∃ d, some d ∈ ps ∧ jsTrim d ≠ "" ∧ jsTrim d = x := by
  simp only [seedDois, dedupFirst, dedupSeen_mem, List.not_mem_nil, not_false_iff,
    and_true, cleanIds_mem]
  constructor
  · rintro ⟨d, hd, h1, h2⟩
    rcases List.mem_filterMap.1 hd with ⟨o, ho, he⟩
    cases o with
    | none => cases he
    | some d0 =>
      cases Option.some.inj he
      exact ⟨d, ho, h1, h2⟩
  · rintro ⟨d, hd, h1, h2⟩
    exact ⟨d, List.mem_filterMap.2 ⟨some d, hd, rfl⟩, h1, h2⟩

/-- `seedDois` has no duplicates. -/
theorem seedDois_nodup (ps : List (Option String)) : (seedDois ps).Nodup :=
  dedupSeen_nodup _ []

/-- Elements of `seedDois` are non-empty. -/
theorem seedDois_ne_empty (ps : List (Option String)) :
    ∀ s ∈ seedDois ps, s ≠ "" := by
  intro s hs
  rcases (seedDois_mem ps s).1 hs with ⟨d, _, h1, h2⟩
  exact h2 ▸ h1

/-- Claim C7: `seedDois` returns a deduplicated list of non-empty trimmed
DOIs: no duplicates; no empty entry; an identifier appears exactly when some
list entry trims to it non-trivially (so empty and whitespace-only entries
are dropped silently); the result is a subsequence of the cleaned stream;
and the relative order of any two results equals the relative order of their
first occurrences in the cleaned stream (first-seen order). -/
theorem c7_seed_normalization : ∀ ps : List (Option String),
    (seedDois ps).Nodup
  ∧ (∀ s ∈ seedDois ps, s ≠ "")
  ∧ (∀ x, x ∈ seedDois ps ↔ ∃ d, some d ∈ ps ∧ jsTrim d ≠ "" ∧ jsTrim d = x)
  ∧ (seedDois ps).Sublist (cleanIds (ps.filterMap (fun o => o)))
  ∧ (∀ x y, x ∈ seedDois ps → y ∈ seedDois ps →
      (idxOfStr x (seedDois ps) < idxOfStr y (seedDois ps)
        ↔ idxOfStr x (cleanIds (ps.filterMap (fun o => o)))
            < idxOfStr y (cleanIds (ps.filterMap (fun o => o))))) := by
  intro ps
  refine ⟨seedDois_nodup ps, seedDois_ne_empty ps, seedDois_mem ps, ?_, ?_⟩
  · exact dedupSeen_sublist _ []
  · intro x y hx hy
    exact dedupSeen_idx_lt _ [] x y (by simp) (by simp) hx hy

/-- `leChars` is total. -/
theorem leChars_total : ∀ a b : List Char, leChars a b = true ∨ leChars b a = true := by
  intro a
  induction a with
  | nil => intro b; exact Or.inl rfl
  | cons x xs ih =>
    intro b
    cases b with
    | nil => exact Or.inr rfl
    | cons y ys =>
      by_cases h1 : x.toNat < y.toNat
      · left
        simp [leChars, h1]
      · by_cases h2 : y.toNat < x.toNat
        · right
          simp [leChars, h2]
        · rcases ih ys with h | h
          · left
            simp [leChars, h1, h2, h]
          · right
            simp [leChars, h1, h2, h]

/-- `leChars` is transitive. -/
theorem leChars_trans : ∀ a b c : List Char,
    leChars a b = true → leChars b c = true → leChars a c = true := by
  intro a
  induction a with
  | nil => intro b c _ _; rfl
  | cons x xs ih =>
    intro b c hab hbc
    cases b with
    | nil => exact Bool.noConfusion hab
    | cons y ys =>
      cases c with
      | nil => exact Bool.noConfusion hbc
      | cons z zs =>
        simp only [leChars] at hab hbc ⊢
        split_ifs at hab hbc ⊢ <;>
          first
          | rfl
          | exact Bool.noConfusion hab
          | exact Bool.noConfusion hbc
          | exact ih ys zs hab hbc
          | (exfalso; omega)

/-- `leChars` is antisymmetric. -/
theorem leChars_antisymm : ∀ a b : List Char,
    leChars a b = true → leChars b a = true → a = b := by
  intro a
  induction a with
  | nil =>
    intro b _ hba
    cases b with
    | nil => rfl
    | cons y ys => exact Bool.noConfusion hba
  | cons x xs ih =>
    intro b hab hba
    cases b with
    | nil => exact Bool.noConfusion hab
    | cons y ys =>
      simp only [leChars] at hab hba
      split_ifs at hab hba <;>
        first
        | exact Bool.noConfusion hab
        | exact Bool.noConfusion hba
        | (exfalso; omega)
        | (have hn : x.toNat = y.toNat := by omega
           have hxy : x = y := Char.ext (UInt32.ext hn)
           rw [hxy, ih ys hab hba])

/-- Two strings with the same character data are equal. -/
theorem stringDataInj {a b : String} (h : a.data = b.data) : a = b := by
  cases a
  cases b
  exact congrArg String.mk h

/-- `joinBar` agrees with `joinL` on the character data. -/
theorem joinBar_data : ∀ l : List String, (joinBar l).data = joinL (l.map String.data)
  | [] => rfl
  | [s] => rfl
  | s :: t :: r => by
    have ih := joinBar_data (t :: r)
    show ((s ++ "|") ++ joinBar (t :: r)).data
      = s.data ++ '|' :: joinL ((t :: r).map String.data)
    rw [String.data_append, String.data_append, ih]
    simp

/-- Cancellation around the first separator: two decompositions
`prefix ++ '|' :: rest` with separator-free prefixes coincide. -/
theorem sepCancel : ∀ a b u v : List Char, '|' ∉ a → '|' ∉ b →
    a ++ '|' :: u = b ++ '|' :: v → a = b ∧ u = v := by
  intro a
  induction a with
  | nil =>
    intro b u v _ hb h
    cases b with
    | nil =>
      simp only [List.nil_append, List.cons.injEq] at h
      exact ⟨rfl, h.2⟩
    | cons c b' =>
      rw [List.nil_append, List.cons_append] at h
      injection h with h1 h2
      subst h1
      exact absurd (List.mem_cons_self _ _) hb
  | cons x a' ih =>
    intro b u v ha hb h
    cases b with
    | nil =>
      rw [List.cons_append, List.nil_append] at h
      injection h with h1 h2
      subst h1
      exact absurd (List.mem_cons_self _ _) ha
    | cons y b' =>
      rw [List.cons_append, List.cons_append] at h
      injection h with h1 h2
      have ha' : '|' ∉ a' := fun m => ha (List.mem_cons_of_mem x m)
      have hb' : '|' ∉ b' := fun m => hb (List.mem_cons_of_mem y m)
      obtain ⟨e1, e2⟩ := ih b' u v ha' hb' h2
      exact ⟨by rw [h1, e1], e2⟩

/-- `joinL` is injective on lists of non-empty separator-free entries. -/
theorem joinL_inj : ∀ l₁ l₂ : List (List Char),
    (∀ s ∈ l₁, s ≠ [] ∧ '|' ∉ s) → (∀ s ∈ l₂, s ≠ [] ∧ '|' ∉ s) →
    joinL l₁ = joinL l₂ → l₁ = l₂
  | [], [], _, _, _ => rfl
  | [], s :: r, _, h₂, h => by
    cases r with
    | nil =>
      have : s = [] := by simpa [joinL] using h.symm
      exact absurd this (h₂ s (List.mem_cons_self s [])).1
    | cons t r' => simp [joinL] at h
  | s :: r, [], h₁, _, h => by
    cases r with
    | nil =>
      have : s = [] := by simpa [joinL] using h
      exact absurd this (h₁ s (List.mem_cons_self s [])).1
    | cons t r' => simp [joinL] at h
  | [s], [t], _, _, h => by
    rw [show s = t from by simpa [joinL] using h]
  | [s], t :: u :: r, h₁, _, h => by
    have hm : '|' ∈ s := by
      have h' : s = t ++ '|' :: joinL (u :: r) := by simpa [joinL] using h
      rw [h']
      exact List.mem_append.2 (Or.inr (List.mem_cons_self _ _))
    exact absurd hm (h₁ s (List.mem_cons_self s [])).2
  | s :: t :: r, [u], _, h₂, h => by
    have hm : '|' ∈ u := by
      have h' : u = s ++ '|' :: joinL (t :: r) := by simpa [joinL] using h.symm
      rw [h']
      exact List.mem_append.2 (Or.inr (List.mem_cons_self _ _))
    exact absurd hm (h₂ u (List.mem_cons_self u [])).2
  | s :: t :: r, u :: v :: w, h₁, h₂, h => by
    have h' : s ++ '|' :: joinL ((t :: r).map (fun q => q))
        = u ++ '|' :: joinL ((v :: w).map (fun q => q)) := by
      simpa [joinL] using h
    rw [List.map_id'] at h'
    rw [List.map_id'] at h'
    obtain ⟨e1, e2⟩ := sepCancel s u (joinL (t :: r)) (joinL (v :: w))
      (h₁ s (List.mem_cons_self s _)).2 (h₂ u (List.mem_cons_self u _)).2 h'
    have e3 := joinL_inj (t :: r) (v :: w)
      (fun q hq => h₁ q (List.mem_cons_of_mem s hq))
      (fun q hq => h₂ q (List.mem_cons_of_mem u hq)) e2
    rw [e1, e3]

/-- `joinBar` is injective on lists of non-empty strings free of the
separator character. -/
theorem joinBar_inj (l₁ l₂ : List String)
    (h₁ : ∀ s ∈ l₁, s ≠ "" ∧ '|' ∉ s.data)
    (h₂ : ∀ s ∈ l₂, s ≠ "" ∧ '|' ∉ s.data)
    (h : joinBar l₁ = joinBar l₂) : l₁ = l₂ := by
  have hd : joinL (l₁.map String.data) = joinL (l₂.map String.data) := by
    rw [← joinBar_data, ← joinBar_data, h]
  have hc : ∀ l : List String, (∀ s ∈ l, s ≠ "" ∧ '|' ∉ s.data) →
      ∀ q ∈ l.map String.data, q ≠ [] ∧ '|' ∉ q := by
    intro l hl q hq
    rcases List.mem_map.1 hq with ⟨t, ht, rfl⟩
    exact ⟨fun e => (hl t ht).1 (stringDataInj (show t.data = "".data from e)),
      (hl t ht).2⟩
  have hmap := joinL_inj (l₁.map String.data) (l₂.map String.data)
    (hc l₁ h₁) (hc l₂ h₂) hd
  exact List.map_injective_iff.2 (fun a b e => stringDataInj e) hmap

/-- Claim C5 (counterexample): the seed sets `{"a|b"}` and `{"a", "b"}` are
distinct, yet they produce the same signature, and the record stored for one
is returned by the cache lookup of the other — two distinct seed sets can
reuse each other's record when an identifier contains the separator. -/
theorem c5_counterexample_separator_collision :
    cacheSig (seedDois [some "a|b"]) = cacheSig (seedDois [some "a", some "b"])
  ∧ seedDois [some "a|b"] ≠ seedDois [some "a", some "b"]
  ∧ ("a" ∈ seedDois [some "a", some "b"] ∧ "a" ∉ seedDois [some "a|b"])
  ∧ tryLoadCache
      (some (StoredVal.record (cacheSig (seedDois [some "a", some "b"]))
        (some (toJ ⟨[], []⟩))))
      (cacheSig (seedDois [some "a|b"])) = some (toJ ⟨[], []⟩) := by
  decide

/-- Claim C5 (amended): the signature is a deterministic function of the seed
identifier set — seed lists equal as sets after trimming and deduplication
give one signature, whatever the order; a stored record is returned only when
its signature equals the current one exactly; and for seed identifiers free
of the separator character, equal signatures force equal seed sets, so two
distinct separator-free seed sets never reuse each other's record. -/
theorem c5_signature_determines_seed_set :
    (∀ ps₁ ps₂ : List (Option String),
      (∀ x, x ∈ seedDois ps₁ ↔ x ∈ seedDois ps₂) →
      cacheSig (seedDois ps₁) = cacheSig (seedDois ps₂))
  ∧ (∀ sg og sig jg,
      tryLoadCache (some (StoredVal.record sg og)) sig = some jg → sg = sig)
  ∧ (∀ ps₁ ps₂ : List (Option String),
      (∀ s ∈ seedDois ps₁, '|' ∉ s.data) → (∀ s ∈ seedDois ps₂, '|' ∉ s.data) →
      cacheSig (seedDois ps₁) = cacheSig (seedDois ps₂) →
      ∀ x, x ∈ seedDois ps₁ ↔ x ∈ seedDois ps₂) := by
  haveI iTot : IsTotal String strLeRel := ⟨fun a b => leChars_total a.data b.data⟩
  haveI iTrans : IsTrans String strLeRel :=
    ⟨fun a b c => leChars_trans a.data b.data c.data⟩
  haveI iAnti : IsAntisymm String strLeRel :=
    ⟨fun a b h1 h2 => stringDataInj (leChars_antisymm a.data b.data h1 h2)⟩
  refine ⟨?_, ?_, ?_⟩
  · intro ps₁ ps₂ hm
    have hp : (seedDois ps₁).Perm (seedDois ps₂) :=
      (List.perm_ext_iff_of_nodup (seedDois_nodup ps₁) (seedDois_nodup ps₂)).2 hm
    have hs : (List.insertionSort strLeRel (seedDois ps₁)).Perm
        (List.insertionSort strLeRel (seedDois ps₂)) :=
      (List.perm_insertionSort strLeRel (seedDois ps₁)).trans
        (hp.trans (List.perm_insertionSort strLeRel (seedDois ps₂)).symm)
    have he := List.eq_of_perm_of_sorted hs
      (List.sorted_insertionSort strLeRel (seedDois ps₁))
      (List.sorted_insertionSort strLeRel (seedDois ps₂))
    simp only [cacheSig]
    rw [he]
  · intro sg og sig jg h
    cases og with
    | none => exact Option.noConfusion h
    | some jg0 =>
      by_cases hc : sg = sig ∧ jg0.nodes.isSome ∧ jg0.links.isSome
      · exact hc.1
      · rw [tryLoadCache] at h
        simp only [if_neg hc] at h
        exact Option.noConfusion h
  · intro ps₁ ps₂ hb₁ hb₂ hsig x
    have hcond : ∀ ps : List (Option String), (∀ s ∈ seedDois ps, '|' ∉ s.data) →
        ∀ s ∈ List.insertionSort strLeRel (seedDois ps), s ≠ "" ∧ '|' ∉ s.data := by
      intro ps hb s hs0
      have hmem : s ∈ seedDois ps :=
        (List.perm_insertionSort strLeRel (seedDois ps)).mem_iff.1 hs0
      exact ⟨seedDois_ne_empty ps s hmem, hb s hmem⟩
    have he : List.insertionSort strLeRel (seedDois ps₁)
        = List.insertionSort strLeRel (seedDois ps₂) :=
      joinBar_inj _ _ (hcond ps₁ hb₁) (hcond ps₂ hb₂) (by simpa [cacheSig] using hsig)
    constructor
    · intro hx
      exact (List.perm_insertionSort strLeRel (seedDois ps₂)).mem_iff.1
        (he ▸ (List.perm_insertionSort strLeRel (seedDois ps₁)).mem_iff.2 hx)
    · intro hx
      exact (List.perm_insertionSort strLeRel (seedDois ps₁)).mem_iff.1
        (he.symm ▸ (List.perm_insertionSort strLeRel (seedDois ps₂)).mem_iff.2 hx)

/-- Membership in the visited list survives pushing a new node. -/
theorem mem_visited_push {st : BState} {x : String} (hx : x ∈ visitedIds st)
    (r : String) (d : Nat) (es : List (String × String)) :
    x ∈ visitedIds ⟨st.visited ++ [(r, d)], es⟩ := by
  simp only [visitedIds] at hx ⊢
  rw [List.map_append]
  exact List.mem_append_left _ hx

/-- A pushed node is in the visited list. -/
theorem self_mem_visited_push (st : BState) (r : String) (d : Nat)
    (es : List (String × String)) :
    r ∈ visitedIds ⟨st.visited ++ [(r, d)], es⟩ := by
  simp [visitedIds]

/-- An edge in `addEdge es e` comes from `es` or is `e`. -/
theorem mem_addEdge {es : List (String × String)} {e e' : String × String}
    (h : e' ∈ addEdge es e) : e' ∈ es ∨ e' = e := by
  unfold addEdge at h
  split_ifs at h
  · exact Or.inl h
  · simpa using h

/-- Both endpoints of `mkEdge` are the expanded id or the related id. -/
theorem mkEdge_endpoints (inc : Bool) (idv r : String) :
    ((mkEdge inc idv r).1 = idv ∨ (mkEdge inc idv r).1 = r)
      ∧ ((mkEdge inc idv r).2 = idv ∨ (mkEdge inc idv r).2 = r) := by
  cases inc <;> simp [mkEdge]

/-- `addRelated` only grows the visited set. -/
theorem addRelated_mono (inc : Bool) (idv : String) (d : Nat) (ceil : Option Nat) :
    ∀ (rel : List String) (st : BState) (x : String), x ∈ visitedIds st →
      x ∈ visitedIds (addRelated inc idv d ceil rel st).1 := by
  intro rel
  induction rel with
  | nil => intro st x hx; exact hx
  | cons r rs ih =>
    intro st x hx
    rw [addRelated]
    split_ifs with h1 h2 h3
    · exact ih st x hx
    · exact ih _ x hx
    · exact ih _ x (mem_visited_push hx r d _)
    · exact ih st x hx

/-- Ids enqueued by `addRelated` are in the resulting visited set. -/
theorem addRelated_newq (inc : Bool) (idv : String) (d : Nat) (ceil : Option Nat) :
    ∀ (rel : List String) (st : BState),
      ∀ q ∈ (addRelated inc idv d ceil rel st).2,
        q ∈ visitedIds (addRelated inc idv d ceil rel st).1 := by
  intro rel
  induction rel with
  | nil => intro st q hq; exact absurd hq (List.not_mem_nil q)
  | cons r rs ih =>
    intro st q hq
    rw [addRelated] at hq ⊢
    split_ifs at hq ⊢ with h1 h2 h3
    · exact ih st q hq
    · exact ih _ q hq
    · rcases List.mem_cons.1 hq with e | m
      · subst e
        exact addRelated_mono inc idv d ceil rs _ q (self_mem_visited_push st q d _)
      · exact ih _ q m
    · exact ih st q hq

/-- `addRelated` preserves the edge invariant when the expanded id is
already a node. -/
theorem addRelated_inv (inc : Bool) (idv : String) (d : Nat) (ceil : Option Nat) :
    ∀ (rel : List String) (st : BState), idv ∈ visitedIds st → EdgeInv st →
      EdgeInv (addRelated inc idv d ceil rel st).1 := by
  intro rel
  induction rel with
  | nil => intro st _ hinv; exact hinv
  | cons r rs ih =>
    intro st hid hinv
    rw [addRelated]
    split_ifs with h1 h2 h3
    · exact ih st hid hinv
    · refine ih _ hid ?_
      intro e' he'
      rcases mem_addEdge he' with h | h
      · exact hinv e' h
      · subst h
        rcases mkEdge_endpoints inc idv r with ⟨hf, hs⟩
        constructor
        · rcases hf with e | e <;> rw [e]
          · exact hid
          · exact h2
        · rcases hs with e | e <;> rw [e]
          · exact hid
          · exact h2
    · refine ih _ (mem_visited_push hid r d _) ?_
      intro e' he'
      rcases mem_addEdge he' with h | h
      · rcases hinv e' h with ⟨ha, hb⟩
        exact ⟨mem_visited_push ha r d _, mem_visited_push hb r d _⟩
      · subst h
        rcases mkEdge_endpoints inc idv r with ⟨hf, hs⟩
        constructor
        · rcases hf with e | e <;> rw [e]
          · exact mem_visited_push hid r d _
          · exact self_mem_visited_push st r d _
        · rcases hs with e | e <;> rw [e]
          · exact mem_visited_push hid r d _
          · exact self_mem_visited_push st r d _
    · exact ih st hid hinv

/-- With no node ceiling, every related id ends up in the visited set. -/
theorem addRelated_covers (inc : Bool) (idv : String) (d : Nat) :
    ∀ (rel : List String) (st : BState), idv ∈ visitedIds st →
      ∀ r0 ∈ rel, r0 ∈ visitedIds (addRelated inc idv d none rel st).1 := by
  intro rel
  induction rel with
  | nil => intro st _ r0 hr0; exact absurd hr0 (List.not_mem_nil r0)
  | cons r rs ih =>
    intro st hid r0 hr0
    rw [addRelated]
    split_ifs with h1 h2 h3
    · rcases List.mem_cons.1 hr0 with e | m
      · subst e
        rw [h1]
        exact addRelated_mono inc idv d none rs st idv hid
      · exact ih st hid r0 m
    · rcases List.mem_cons.1 hr0 with e | m
      · subst e
        exact addRelated_mono inc idv d none rs _ r0 h2
      · exact ih ⟨st.visited, addEdge st.edges (mkEdge inc idv r)⟩ hid r0 m
    · rcases List.mem_cons.1 hr0 with e | m
      · subst e
        exact addRelated_mono inc idv d none rs _ r0 (self_mem_visited_push st r0 d _)
      · exact ih _ (mem_visited_push hid r d _) r0 m
    · simp [canAdd] at h3

/-- `expandNode` only grows the visited set. -/
theorem expandNode_mono (cfg : BuildConfig) (d : Nat) (st : BState) (idv : String)
    (x : String) (hx : x ∈ visitedIds st) :
    x ∈ visitedIds (expandNode cfg d st idv).1 := by
  rw [expandNode]
  split_ifs
  · exact addRelated_mono true idv d cfg.maxTotalNodes _ _ x
      (addRelated_mono false idv d cfg.maxTotalNodes _ st x hx)
  · exact addRelated_mono false idv d cfg.maxTotalNodes _ st x hx

/-- `expandNode` preserves the edge invariant. -/
theorem expandNode_inv (cfg : BuildConfig) (d : Nat) (st : BState) (idv : String)
    (hid : idv ∈ visitedIds st) (hinv : EdgeInv st) :
    EdgeInv (expandNode cfg d st idv).1 := by
  rw [expandNode]
  split_ifs
  · exact addRelated_inv true idv d cfg.maxTotalNodes _ _
      (addRelated_mono false idv d cfg.maxTotalNodes _ st idv hid)
      (addRelated_inv false idv d cfg.maxTotalNodes _ st hid hinv)
  · exact addRelated_inv false idv d cfg.maxTotalNodes _ st hid hinv

/-- Ids enqueued by `expandNode` are in its resulting visited set. -/
theorem expandNode_newq (cfg : BuildConfig) (d : Nat) (st : BState) (idv : String) :
    ∀ q ∈ (expandNode cfg d st idv).2, q ∈ visitedIds (expandNode cfg d st idv).1 := by
  intro q hq
  rw [expandNode] at hq ⊢
  split_ifs at hq ⊢
  · rcases List.mem_append.1 hq with h | h
    · exact addRelated_mono true idv d cfg.maxTotalNodes _ _ q
        (addRelated_newq false idv d cfg.maxTotalNodes _ st q h)
    · exact addRelated_newq true idv d cfg.maxTotalNodes _ _ q h
  · exact addRelated_newq false idv d cfg.maxTotalNodes _ st q hq

/-- With no node ceiling, every fetched forward reference (after the
per-node cap) of the expanded id is in the resulting visited set. -/
theorem expandNode_covers (cfg : BuildConfig) (d : Nat) (st : BState) (idv : String)
    (hceil : cfg.maxTotalNodes = none) (hid : idv ∈ visitedIds st) :
    ∀ r ∈ (cfg.fetchRefs idv).take cfg.maxRefsPerNode,
      r ∈ visitedIds (expandNode cfg d st idv).1 := by
  intro r hr
  rw [expandNode]
  split_ifs
  · rw [hceil]
    exact addRelated_mono true idv d none _ _ r
      (addRelated_covers false idv d _ st hid r hr)
  · rw [hceil]
    exact addRelated_covers false idv d _ st hid r hr

/-- `expandLevel` only grows the visited set. -/
theorem expandLevel_mono (cfg : BuildConfig) (d : Nat) :
    ∀ (ids : List String) (st : BState) (x : String), x ∈ visitedIds st →
      x ∈ visitedIds (expandLevel cfg d ids st).1 := by
  intro ids
  induction ids with
  | nil => intro st x hx; exact hx
  | cons i rest ih =>
    intro st x hx
    rw [expandLevel]
    exact ih _ x (expandNode_mono cfg d st i x hx)

/-- `expandLevel` preserves the edge invariant when its frontier is made of
already discovered nodes. -/
theorem expandLevel_inv (cfg : BuildConfig) (d : Nat) :
    ∀ (ids : List String) (st : BState), (∀ i ∈ ids, i ∈ visitedIds st) →
      EdgeInv st → EdgeInv (expandLevel cfg d ids st).1 := by
  intro ids
  induction ids with
  | nil => intro st _ hinv; exact hinv
  | cons i rest ih =>
    intro st hf hinv
    rw [expandLevel]
    refine ih _ ?_ (expandNode_inv cfg d st i (hf i (List.mem_cons_self i rest)) hinv)
    intro j hj
    exact expandNode_mono cfg d st i j (hf j (List.mem_cons_of_mem i hj))

/-- Ids collected for the next frontier by `expandLevel` are in its
resulting visited set. -/
theorem expandLevel_newq (cfg : BuildConfig) (d : Nat) :
    ∀ (ids : List String) (st : BState),
      ∀ q ∈ (expandLevel cfg d ids st).2, q ∈ visitedIds (expandLevel cfg d ids st).1 := by
  intro ids
  induction ids with
  | nil => intro st q hq; exact absurd hq (List.not_mem_nil q)
  | cons i rest ih =>
    intro st q hq
    rw [expandLevel] at hq ⊢
    rcases List.mem_append.1 hq with h | h
    · exact expandLevel_mono cfg d rest _ q (expandNode_newq cfg d st i q h)
    · exact ih _ q h

/-- With no node ceiling, every fetched forward reference (after the cap) of
every frontier node of a level is in the visited set after that level. -/
theorem expandLevel_covers (cfg : BuildConfig) (d : Nat)
    (hceil : cfg.maxTotalNodes = none) :
    ∀ (ids : List String) (st : BState), (∀ i ∈ ids, i ∈ visitedIds st) →
      ∀ s ∈ ids, ∀ r ∈ (cfg.fetchRefs s).take cfg.maxRefsPerNode,
        r ∈ visitedIds (expandLevel cfg d ids st).1 := by
  intro ids
  induction ids with
  | nil => intro st _ s hs; exact absurd hs (List.not_mem_nil s)
  | cons i rest ih =>
    intro st hf s hs r hr
    rw [expandLevel]
    rcases List.mem_cons.1 hs with e | m
    · subst e
      exact expandLevel_mono cfg d rest _ r
        (expandNode_covers cfg d st s hceil (hf s (List.mem_cons_self s rest)) r hr)
    · refine ih _ ?_ s m r hr
      intro j hj
      exact expandNode_mono cfg d st i j (hf j (List.mem_cons_of_mem i hj))

/-- `bfs` only grows the visited set. -/
theorem bfs_mono (cfg : BuildConfig) :
    ∀ (b d : Nat) (f : List String) (st : BState) (x : String),
      x ∈ visitedIds st → x ∈ visitedIds (bfs cfg b d f st) := by
  intro b
  induction b with
  | zero => intro d f st x hx; exact hx
  | succ b ih =>
    intro d f st x hx
    rw [bfs]
    exact ih (d + 1) _ _ x (expandLevel_mono cfg (d + 1) f st x hx)

/-- `bfs` preserves the edge invariant along a discovered frontier. -/
theorem bfs_inv (cfg : BuildConfig) :
    ∀ (b d : Nat) (f : List String) (st : BState),
      (∀ i ∈ f, i ∈ visitedIds st) → EdgeInv st → EdgeInv (bfs cfg b d f st) := by
  intro b
  induction b with
  | zero => intro d f st _ hinv; exact hinv
  | succ b ih =>
    intro d f st hf hinv
    rw [bfs]
    exact ih (d + 1) _ _ (expandLevel_newq cfg (d + 1) f st)
      (expandLevel_inv cfg (d + 1) f st hf hinv)

/-- One step of `bfs`. -/
theorem bfs_succ (cfg : BuildConfig) (b d : Nat) (f : List String) (st : BState) :
    bfs cfg (b + 1) d f st
      = bfs cfg b (d + 1) (expandLevel cfg (d + 1) f st).2
          (expandLevel cfg (d + 1) f st).1 := rfl

/-- The ids of the initial traversal state are the seeds. -/
theorem init_visited (seeds : List String) :
    visitedIds ⟨seeds.map (fun s => (s, 0)), []⟩ = seeds := by
  simp only [visitedIds, List.map_map]
  exact List.map_id' seeds

/-- The node ids of the built graph are the ids visited by the traversal. -/
theorem nodeIds_build (cfg : BuildConfig) :
    nodeIds (buildCitationGraph cfg)
      = visitedIds (bfs cfg cfg.maxDepth 0 (seedList cfg)
          ⟨(seedList cfg).map (fun s => (s, 0)), []⟩) := by
  simp [buildCitationGraph, nodeIds, visitedIds, List.map_map]

/-- Claim C1: in the graph returned by `buildCitationGraph`, every link's
source id and target id are ids of the returned node set — no dangling edge
endpoints, for every seed list and configuration. -/
theorem c1_no_dangling_edge_endpoints (cfg : BuildConfig) (l : GLink)
    (hl : l ∈ (buildCitationGraph cfg).links) :
    l.source ∈ nodeIds (buildCitationGraph cfg)
      ∧ l.target ∈ nodeIds (buildCitationGraph cfg) := by
  have hinv : EdgeInv (bfs cfg cfg.maxDepth 0 (seedList cfg)
      ⟨(seedList cfg).map (fun s => (s, 0)), []⟩) := by
    refine bfs_inv cfg cfg.maxDepth 0 (seedList cfg) _ ?_ ?_
    · intro i hi
      rw [init_visited (seedList cfg)]
      exact hi
    · intro e he
      exact absurd he (List.not_mem_nil e)
  have hl' : l ∈ (bfs cfg cfg.maxDepth 0 (seedList cfg)
      ⟨(seedList cfg).map (fun s => (s, 0)), []⟩).edges.map
        (fun e => GLink.mk e.1 e.2) := hl
  rcases List.mem_map.1 hl' with ⟨e, he, rfl⟩
  rw [nodeIds_build cfg]
  exact hinv e he

/-- Witness for C1 at a one-seed configuration whose provider returns one
reference: both endpoints of the produced link are node ids. -/
theorem c1_no_dangling_edge_endpoints_witness :
    "a" ∈ nodeIds (buildCitationGraph
        { seedDois := ["a"], titlesByDoi := fun _ => none, maxDepth := 1,
          maxRefsPerNode := 5, maxTotalNodes := none, includeIncoming := false,
          fetchRefs := fun _ => ["b"], fetchCiters := fun _ => [], delayMs := 0 })
      ∧ "b" ∈ nodeIds (buildCitationGraph
        { seedDois := ["a"], titlesByDoi := fun _ => none, maxDepth := 1,
          maxRefsPerNode := 5, maxTotalNodes := none, includeIncoming := false,
          fetchRefs := fun _ => ["b"], fetchCiters := fun _ => [], delayMs := 0 }) :=
  c1_no_dangling_edge_endpoints
    { seedDois := ["a"], titlesByDoi := fun _ => none, maxDepth := 1,
      maxRefsPerNode := 5, maxTotalNodes := none, includeIncoming := false,
      fetchRefs := fun _ => ["b"], fetchCiters := fun _ => [], delayMs := 0 }
    ⟨"a", "b"⟩ (by decide)

/-- Claim C8: a provider failure for one node degrades to an empty
related-work list for that node only.  First, the retry loop returns `[]`
once its bounded attempts are exhausted on a persistently failing provider.
Second, whatever lists the (already degraded) provider returns for the other
nodes, the build continues: with depth at least 1 and no node ceiling, every
normalized seed is a node of the resulting graph and so is every capped
forward reference fetched for that seed — seeds whose fetch succeeded are
fully expanded even when other fetches were degraded to `[]`. -/
theorem c8_provider_failure_degrades_locally :
    (∀ (p : Nat → Except Unit (List String)) (i n : Nat),
      (∀ j, p j = Except.error ()) → retryFetch p i n = [])
  ∧ (∀ (cfg : BuildConfig) (s : String), cfg.maxTotalNodes = none →
      1 ≤ cfg.maxDepth → s ∈ seedList cfg →
      s ∈ nodeIds (buildCitationGraph cfg)
        ∧ ∀ r ∈ (cfg.fetchRefs s).take cfg.maxRefsPerNode,
            r ∈ nodeIds (buildCitationGraph cfg)) := by
  constructor
  · intro p i n h
    induction n generalizing i with
    | zero => rfl
    | succ n ih =>
      rw [retryFetch, h i]
      exact ih (i + 1)
  · intro cfg s hceil hd hs
    rcases Nat.exists_eq_add_of_le hd with ⟨b, hb⟩
    rw [Nat.add_comm] at hb
    have hseed : s ∈ visitedIds ⟨(seedList cfg).map (fun q => (q, 0)), []⟩ := by
      rw [init_visited (seedList cfg)]
      exact hs
    have hfront : ∀ i ∈ seedList cfg,
        i ∈ visitedIds ⟨(seedList cfg).map (fun q => (q, 0)), []⟩ := by
      intro i hi
      rw [init_visited (seedList cfg)]
      exact hi
    constructor
    · rw [nodeIds_build cfg]
      exact bfs_mono cfg cfg.maxDepth 0 (seedList cfg) _ s hseed
    · intro r hr
      rw [nodeIds_build cfg, hb, bfs_succ]
      refine bfs_mono cfg b 1 _ _ r ?_
      exact expandLevel_covers cfg 1 hceil (seedList cfg) _ hfront s hs r hr
